import Mathlib

/-!
# nesoi: the triplet merge tree store

A shallow embedding of `include/nesoi/triplet-merge-tree.h`.

* A `Vertex` is a `w`-bit unsigned integer; it is embedded as a `Nat`, and the
  width `w` is an explicit parameter wherever the source depends on it
  (`static_cast<Vertex>(-1)`).
* `std::vector<T>` is embedded as `List T`; indexing outside the vector is
  undefined behaviour in the source and is `none` here.
* The preprocessor switch `NESOI_NO_PARALLEL` is the boolean `parallel`
  (`parallel = false` is the build with `NESOI_NO_PARALLEL` defined).
* `std::atomic<Edge>::compare_exchange_weak` may fail spuriously; the choice is
  the boolean `spurious` supplied by the environment.
-/

namespace nesoi

/-- The conversion `static_cast<Vertex>(i)` of a signed integer to a `w`-bit
unsigned vertex: reduction modulo `2 ^ w`. -/
def static_cast_Vertex (w : Nat) (i : Int) : Nat :=
  (i % (2 : Int) ^ w).toNat

/-- The struct `Edge`: the triplet stored at a vertex (`to_` is the field `to`,
a reserved word here). -/
structure Edge where
  through : Nat
  to_ : Nat
deriving DecidableEq

/-- The member `Edge::operator==`. -/
def Edge.eq (a other : Edge) : Bool :=
  a.through == other.through && a.to_ == other.to_

/-- The member `Edge::operator!=`. -/
def Edge.ne (a other : Edge) : Bool :=
  a.through != other.through || a.to_ != other.to_

/-- The private fields of `TripletMergeTree<Value, Vertex>`. -/
structure TripletMergeTree (Value : Type) where
  negate_ : Bool
  function_ : List Value
  cache_ : List Nat
  tree_ : List Edge
deriving DecidableEq

/-- The private member `dummy_vertex()`: `static_cast<Vertex>(-1)`. -/
def dummy_vertex (w : Nat) : Nat :=
  static_cast_Vertex w (-1)

/-- The member `dummy()`; it reads no field, only the vertex type. -/
def dummy (w : Nat) : Edge :=
  Edge.mk (static_cast_Vertex w (-1)) (static_cast_Vertex w (-1))

/-- The member `std::atomic<Edge>::compare_exchange_weak(expected, desired)` of
the C++ standard library, on a slot holding `cur`: the result flag and the
value of the slot afterwards.  The comparison is on the object representation,
which for two vertices is equality of the pair.  (The write-back into
`expected` on failure is dropped: every caller passes a local it never reads
again.) -/
def compare_exchange_weak (spurious : Bool) (cur expected desired : Edge) : Bool × Edge :=
  if cur = expected ∧ spurious = false then (true, desired) else (false, cur)

/-- The private member `compare_exchange(e, expected, desired)`: the result
flag and the value of `e` afterwards. -/
def compare_exchange (parallel spurious : Bool) (e expected desired : Edge) : Bool × Edge :=
  if parallel then
    compare_exchange_weak spurious e expected desired
  else
    if Edge.ne e expected then (false, e) else (true, desired)

/-- The alias `IndexArray`. -/
abbrev IndexArray := List Nat

/-- The alias `IndexDiagram`. -/
abbrev IndexDiagram := List (Nat × Nat)

/-- The alias `Pairings`. -/
abbrev Pairings := IndexDiagram × IndexDiagram × IndexArray × IndexArray

/-- Modelled from the spec: the persistence of a pair of vertices,
`|value(saddle) - value(extremum)|` (spec 4.6); no function of the header
computes it. -/
def persistence {Value : Type} [LinearOrderedAddCommGroup Value] (values : Nat → Value)
    (p : Nat × Nat) : Value :=
  |values p.2 - values p.1|

/-- Modelled from the spec: the body of the member `pairings(edges, labels,
values, negate, squash_root, epsilon)`, which the header only declares (it is
defined in `triplet-merge-tree.hpp`, not among the sources).  Spec 4.6 and the
comment above the declaration: the persistence pairs and the essential
vertices are partitioned into noisy pairs (persistence `< epsilon`),
significant pairs (persistence `>= epsilon`), noisy essential vertices (birth
`< epsilon`, only if `squash_root`) and significant essential vertices (the
others, or all of them if not `squash_root`).  The birth of an essential vertex
is its function value.  The construction and traversal that find the
persistence pairs and the essential vertices are absent as well and the spec
does not determine them; they are the parameter `features`.  The raw arrays
`labels` and `values` are functions of the index. -/
def pairings {Value : Type} [LinearOrderedAddCommGroup Value]
    (features : List (Nat × Nat) → (Nat → Int) → (Nat → Value) → Bool → IndexDiagram × IndexArray)
    (edges : List (Nat × Nat)) (labels : Nat → Int) (values : Nat → Value)
    (negate squash_root : Bool) (epsilon : Value) : Pairings :=
  ((features edges labels values negate).1.filter
      (fun p => decide (persistence values p < epsilon)),
   (features edges labels values negate).1.filter
      (fun p => decide (epsilon ≤ persistence values p)),
   (if squash_root then
      (features edges labels values negate).2.filter (fun u => decide (values u < epsilon))
    else []),
   (if squash_root then
      (features edges labels values negate).2.filter (fun u => decide (epsilon ≤ values u))
    else (features edges labels values negate).2))

namespace TripletMergeTree

variable {Value : Type}

/-- The constructor `TripletMergeTree(size, negate)`: the three vectors are
value-initialised with `size` elements, then every slot of `tree_` is
overwritten by `dummy()`. -/
def ctor [Inhabited Value] (w : Nat) (size : Nat) (negate : Bool) : TripletMergeTree Value :=
  TripletMergeTree.mk negate (List.replicate size default) (List.replicate size 0)
    ((List.replicate size (Edge.mk 0 0)).map (fun _ => dummy w))

/-- The constructor with the flag omitted: `negate = false` is the default
argument. -/
def ctor_default [Inhabited Value] (w : Nat) (size : Nat) : TripletMergeTree Value :=
  ctor w size false

/-- The member `size()`. -/
def size (t : TripletMergeTree Value) : Nat :=
  t.tree_.length

/-- The member `negate()`. -/
def negate (t : TripletMergeTree Value) : Bool :=
  t.negate_

/-- The member `set_negate(negate)`. -/
def set_negate (t : TripletMergeTree Value) (negate : Bool) : TripletMergeTree Value :=
  TripletMergeTree.mk negate t.function_ t.cache_ t.tree_

/-- The member `operator[](u)`: `tree_[u]`. -/
def subscript (t : TripletMergeTree Value) (u : Nat) : Option Edge :=
  t.tree_[u]?

/-- The member `value(u)`: `function_[u]`. -/
def value (t : TripletMergeTree Value) (u : Nat) : Option Value :=
  t.function_[u]?

/-- The member `contains(u)`: `(*this)[u] != dummy()`. -/
def contains (w : Nat) (t : TripletMergeTree Value) (u : Nat) : Option Bool :=
  (t.subscript u).map (fun e => Edge.ne e (dummy w))

/-- The member `link(u, s, v)`: `tree_[u] = Edge {s,v}`. -/
def link (t : TripletMergeTree Value) (u s v : Nat) : Option (TripletMergeTree Value) :=
  if u < t.tree_.length then
    some (TripletMergeTree.mk t.negate_ t.function_ t.cache_ (t.tree_.set u (Edge.mk s v)))
  else
    none

/-- The member `cas_link(u, os, ov, s, v)`, in both builds: the returned flag
and the tree afterwards. -/
def cas_link (parallel spurious : Bool) (t : TripletMergeTree Value) (u os ov s v : Nat) :
    Option (Bool × TripletMergeTree Value) :=
  if parallel then
    match t.tree_[u]? with
    | none => none
    | some cur =>
      let op := Edge.mk os ov
      let p := Edge.mk s v
      let r := compare_exchange_weak spurious cur op p
      some (r.1, TripletMergeTree.mk t.negate_ t.function_ t.cache_ (t.tree_.set u r.2))
  else
    if u < t.tree_.length then
      some (true, TripletMergeTree.mk t.negate_ t.function_ t.cache_ (t.tree_.set u (Edge.mk s v)))
    else
      none

/-- The call `compare_exchange(tree_[u], expected, desired)` of the private
member on the slot of vertex `u`, which it takes by reference: the returned
flag and the tree afterwards. -/
def compare_exchange_at (parallel spurious : Bool) (t : TripletMergeTree Value) (u : Nat)
    (expected desired : Edge) : Option (Bool × TripletMergeTree Value) :=
  match t.tree_[u]? with
  | none => none
  | some e =>
    some ((compare_exchange parallel spurious e expected desired).1,
      TripletMergeTree.mk t.negate_ t.function_ t.cache_
        (t.tree_.set u (compare_exchange parallel spurious e expected desired).2))

/-- Modelled from the spec: the body of the member `cmp(u, v)`, which the header
only declares (it is defined in `triplet-merge-tree.hpp`, not among the
sources).  Spec 4.1: the order is primarily by function value, ascending if
`negate` is false and descending if it is true, and ties between equal function
values are broken by vertex index.  The spec does not say in which direction
the index decides a tie, so that direction is the parameter `tie_desc`
(`false`: the smaller index precedes; `true`: the larger index precedes). -/
def cmp [LinearOrder Value] (tie_desc : Bool) (t : TripletMergeTree Value) (u v : Nat) :
    Option Bool :=
  match t.value u, t.value v with
  | some fu, some fv =>
    if fu = fv then
      some (if tie_desc then decide (v < u) else decide (u < v))
    else
      some (if t.negate_ then decide (fv < fu) else decide (fu < fv))
  | _, _ => none

/-- The data-model invariant on triplets: for every vertex `u < size()`, if the
triplet at `u` is not the sentinel then its `to` is a vertex index below
`size()`. -/
def Valid (w : Nat) (t : TripletMergeTree Value) : Prop :=
  ∀ u, u < t.size → ∀ e, e ∈ t.subscript u → (e ≠ dummy w → e.to_ < t.size)

instance (w : Nat) (t : TripletMergeTree Value) : Decidable (Valid w t) := by
  unfold Valid
  infer_instance

/-- One mutating call on a tree: `link(u, s, v)`, `cas_link(u, os, ov, s, v)`
(with the outcome of the environment's choice in the atomic build), or
`set_negate(b)`. -/
inductive Op where
  | link (u s v : Nat)
  | cas_link (spurious : Bool) (u os ov s v : Nat)
  | set_negate (b : Bool)
deriving DecidableEq

/-- The vertex argument of a call is below `N` (no condition on
`set_negate`, which has none). -/
def Op.in_range (N : Nat) : Op → Bool
  | Op.link u _ _ => decide (u < N)
  | Op.cas_link _ u _ _ _ _ => decide (u < N)
  | Op.set_negate _ => true

/-- The tree after one call. -/
def apply (parallel : Bool) (t : TripletMergeTree Value) : Op → Option (TripletMergeTree Value)
  | Op.link u s v => t.link u s v
  | Op.cas_link spurious u os ov s v =>
      (t.cas_link parallel spurious u os ov s v).map (fun r => r.2)
  | Op.set_negate b => some (t.set_negate b)

/-- The tree after a finite sequence of calls, made one after the other. -/
def run (parallel : Bool) (t : TripletMergeTree Value) : List Op → Option (TripletMergeTree Value)
  | [] => some t
  | op :: ops =>
    match t.apply parallel op with
    | none => none
    | some t' => run parallel t' ops

end TripletMergeTree

/-! ## Shared lemmas -/

theorem static_cast_Vertex_neg_one (w : Nat) : static_cast_Vertex w (-1) = 2 ^ w - 1 := by
  unfold static_cast_Vertex
  have hpos : 0 < 2 ^ w := Nat.two_pow_pos w
  have hcast : ((2 : Int) ^ w) = (((2 ^ w : Nat)) : Int) := by push_cast; rfl
  have hmod : (-1 : Int) % (2 : Int) ^ w = (((2 ^ w - 1 : Nat)) : Int) := by
    rw [hcast, ← Int.add_emod_self]
    rw [Int.emod_eq_of_lt] <;> omega
  rw [hmod]
  exact Int.toNat_natCast _

theorem dummy_eq (w : Nat) : dummy w = Edge.mk (2 ^ w - 1) (2 ^ w - 1) := by
  simp [dummy, static_cast_Vertex_neg_one]

theorem Edge.ne_eq_true_iff (a b : Edge) : Edge.ne a b = true ↔ a ≠ b := by
  cases a; cases b
  simp only [Edge.ne, Bool.or_eq_true, bne_iff_ne, ne_eq, Edge.mk.injEq]
  tauto

theorem Edge.ne_eq_false_iff (a b : Edge) : Edge.ne a b = false ↔ a = b := by
  rw [← Bool.not_eq_true, Edge.ne_eq_true_iff]
  simp

theorem Edge.eq_eq_true_iff (a b : Edge) : Edge.eq a b = true ↔ a = b := by
  cases a; cases b
  simp [Edge.eq]

namespace TripletMergeTree

variable {Value : Type}

theorem ctor_tree_ [Inhabited Value] (w N : Nat) (b : Bool) :
    (ctor w N b : TripletMergeTree Value).tree_ = List.replicate N (dummy w) := by
  simp [ctor]

theorem link_eq_some (t : TripletMergeTree Value) (u s v : Nat) (hu : u < t.size) :
    t.link u s v
      = some (TripletMergeTree.mk t.negate_ t.function_ t.cache_ (t.tree_.set u (Edge.mk s v))) := by
  unfold size at hu
  simp [link, hu]

theorem cas_link_serial_eq_some (spurious : Bool) (t : TripletMergeTree Value)
    (u os ov s v : Nat) (hu : u < t.size) :
    t.cas_link false spurious u os ov s v
      = some (true,
          TripletMergeTree.mk t.negate_ t.function_ t.cache_ (t.tree_.set u (Edge.mk s v))) := by
  unfold size at hu
  simp [cas_link, hu]

theorem cas_link_parallel_eq_some (spurious : Bool) (t : TripletMergeTree Value)
    (u os ov s v : Nat) (cur : Edge) (hcur : t.subscript u = some cur) :
    t.cas_link true spurious u os ov s v
      = some ((compare_exchange_weak spurious cur (Edge.mk os ov) (Edge.mk s v)).1,
          TripletMergeTree.mk t.negate_ t.function_ t.cache_
            (t.tree_.set u (compare_exchange_weak spurious cur (Edge.mk os ov) (Edge.mk s v)).2)) := by
  unfold subscript at hcur
  simp [cas_link, hcur]

theorem subscript_isSome (t : TripletMergeTree Value) (u : Nat) (hu : u < t.size) :
    ∃ e, t.subscript u = some e := by
  unfold size at hu
  exact ⟨t.tree_[u], by simp [subscript, hu]⟩

theorem subscript_set_self (n : Bool) (f : List Value) (c : List Nat) (l : List Edge)
    (u : Nat) (e : Edge) (hu : u < l.length) :
    (TripletMergeTree.mk n f c (l.set u e)).subscript u = some e := by
  simp [subscript, hu]

theorem subscript_set_other (n : Bool) (f : List Value) (c : List Nat) (l : List Edge)
    (u x : Nat) (e : Edge) (hx : x ≠ u) :
    (TripletMergeTree.mk n f c (l.set u e)).subscript x = (TripletMergeTree.mk n f c l).subscript x := by
  simp [subscript, List.getElem?_set_ne (Ne.symm hx)]

theorem list_set_of_getElem? {α : Type} (l : List α) (u : Nat) (e : α) (h : l[u]? = some e) :
    l.set u e = l := by
  apply List.ext_getElem?
  intro i
  by_cases hi : u = i
  · subst hi
    have hlt : u < l.length := by
      rcases Nat.lt_or_ge u l.length with h1 | h1
      · exact h1
      · rw [List.getElem?_eq_none h1] at h
        cases h
    rw [List.getElem?_set_self hlt, h]
  · rw [List.getElem?_set_ne hi]

theorem cas_link_parallel_cases (spurious : Bool) (t : TripletMergeTree Value)
    (u os ov s v : Nat) (cur : Edge) (hcur : t.subscript u = some cur) :
    (cur = Edge.mk os ov ∧ spurious = false
        ∧ t.cas_link true spurious u os ov s v
          = some (true, TripletMergeTree.mk t.negate_ t.function_ t.cache_
              (t.tree_.set u (Edge.mk s v))))
    ∨ ((cur ≠ Edge.mk os ov ∨ spurious = true)
        ∧ t.cas_link true spurious u os ov s v = some (false, t)) := by
  rw [cas_link_parallel_eq_some spurious t u os ov s v cur hcur]
  unfold compare_exchange_weak
  by_cases h : cur = Edge.mk os ov ∧ spurious = false
  · left
    refine ⟨h.1, h.2, ?_⟩
    rw [if_pos h]
  · right
    refine ⟨?_, ?_⟩
    · by_cases h1 : cur = Edge.mk os ov
      · right
        cases spurious
        · exact absurd ⟨h1, rfl⟩ h
        · rfl
      · exact Or.inl h1
    · rw [if_neg h]
      unfold subscript at hcur
      simp only [list_set_of_getElem? t.tree_ u cur hcur]

end TripletMergeTree

/-! ## The store: `cas_link`, `link`, `dummy`, `contains`, the constructor -/

namespace TripletMergeTree

variable {Value : Type}

/-- C1, the claim as stated fails: in the build with `NESOI_NO_PARALLEL`, on the
one-vertex tree just constructed the triplet at vertex 0 is the sentinel, not
`(0, 0)`, yet `cas_link(0, 0, 0, 1, 2)` returns `true` and the triplet at 0 is
`(1, 2)` afterwards: the slot was replaced although it did not hold the expected
triplet, and the call did not return `false`. -/
theorem cas_link_serial_swaps_on_mismatch :
    (ctor 32 1 false : TripletMergeTree Nat).subscript 0 = some (dummy 32)
    ∧ dummy 32 ≠ Edge.mk 0 0
    ∧ (ctor 32 1 false : TripletMergeTree Nat).cas_link false false 0 0 0 1 2
        = some (true, TripletMergeTree.mk false [0] [0] [Edge.mk 1 2])
    ∧ (TripletMergeTree.mk false [0] [0] [Edge.mk 1 2] : TripletMergeTree Nat).subscript 0
        ≠ (ctor 32 1 false : TripletMergeTree Nat).subscript 0 := by
  decide

/-- C1, amended: in the build with `NESOI_NO_PARALLEL`, for every tree, every
vertex `u < size()` and all `os, ov, s, v`, the call `cas_link(u, os, ov, s, v)`
returns `true` and replaces the triplet at `u` by `(s, v)`; it does so when the
triplet at `u` equals `(os, ov)` and also when it does not, so the return value
is `true` exactly when the replacement took place (both always). -/
theorem cas_link_serial_always_swaps (spurious : Bool) (t : TripletMergeTree Value)
    (u os ov s v : Nat) (hu : u < t.size) :
    ∃ r t', t.cas_link false spurious u os ov s v = some (r, t')
      ∧ r = true
      ∧ t'.subscript u = some (Edge.mk s v)
      ∧ (r = true ↔ t'.subscript u = some (Edge.mk s v))
      ∧ (t.subscript u = some (Edge.mk os ov) → r = true ∧ t'.subscript u = some (Edge.mk s v))
      ∧ (t.subscript u ≠ some (Edge.mk os ov) → r = true ∧ t'.subscript u = some (Edge.mk s v)) := by
  have hset := subscript_set_self t.negate_ t.function_ t.cache_ t.tree_ u (Edge.mk s v) hu
  refine ⟨true, _, cas_link_serial_eq_some spurious t u os ov s v hu, rfl, hset, ?_, ?_, ?_⟩
  · simp [hset]
  · exact fun _ => ⟨rfl, hset⟩
  · exact fun _ => ⟨rfl, hset⟩

theorem cas_link_serial_always_swaps_witness :
    ∃ r t', (ctor 32 2 false : TripletMergeTree Nat).cas_link false false 1 7 8 0 1 = some (r, t')
      ∧ r = true
      ∧ t'.subscript 1 = some (Edge.mk 0 1)
      ∧ (r = true ↔ t'.subscript 1 = some (Edge.mk 0 1))
      ∧ ((ctor 32 2 false : TripletMergeTree Nat).subscript 1 = some (Edge.mk 7 8)
          → r = true ∧ t'.subscript 1 = some (Edge.mk 0 1))
      ∧ ((ctor 32 2 false : TripletMergeTree Nat).subscript 1 ≠ some (Edge.mk 7 8)
          → r = true ∧ t'.subscript 1 = some (Edge.mk 0 1)) :=
  cas_link_serial_always_swaps false (ctor 32 2 false) 1 7 8 0 1 (by decide)

/-- C2: for every tree, every vertex `u < size()` and all `s, v`, after
`link(u, s, v)` the triplet read back by `operator[](u)` is exactly
`(through = s, to = v)`, whatever triplet `u` held before. -/
theorem link_then_subscript (t : TripletMergeTree Value) (u s v : Nat) (hu : u < t.size) :
    ∃ t' e, t.link u s v = some t' ∧ t'.subscript u = some e
      ∧ e.through = s ∧ e.to_ = v := by
  refine ⟨_, Edge.mk s v, link_eq_some t u s v hu, ?_, rfl, rfl⟩
  exact subscript_set_self t.negate_ t.function_ t.cache_ t.tree_ u (Edge.mk s v) hu

theorem link_then_subscript_witness :
    ∃ t' e, (TripletMergeTree.mk true [5, 6] [0, 0] [Edge.mk 1 1, dummy 32] :
        TripletMergeTree Nat).link 0 4 9 = some t'
      ∧ t'.subscript 0 = some e ∧ e.through = 4 ∧ e.to_ = 9 :=
  link_then_subscript (TripletMergeTree.mk true [5, 6] [0, 0] [Edge.mk 1 1, dummy 32]) 0 4 9
    (by decide)

/-- C3: `dummy()` is the triplet whose `through` and `to` are both the maximum
`2 ^ w - 1` of the `w`-bit vertex type (`2 ^ 32 - 1` for `std::uint32_t`),
obtained as `static_cast<Vertex>(-1)`; and for every tree and every vertex
`u < size()`, `contains(u)` is `true` if and only if the triplet at `u` differs
from `dummy()`, that is iff its `through` is not the maximum or its `to` is not
the maximum. -/
theorem dummy_is_max_and_contains_iff (w : Nat) (t : TripletMergeTree Value) (u : Nat)
    (hu : u < t.size) :
    dummy w = Edge.mk (2 ^ w - 1) (2 ^ w - 1)
    ∧ dummy w = Edge.mk (static_cast_Vertex w (-1)) (static_cast_Vertex w (-1))
    ∧ dummy 32 = Edge.mk 4294967295 4294967295
    ∧ ∃ e b, t.subscript u = some e ∧ t.contains w u = some b
        ∧ (b = true ↔ e ≠ dummy w)
        ∧ (b = true ↔ (e.through ≠ 2 ^ w - 1 ∨ e.to_ ≠ 2 ^ w - 1)) := by
  refine ⟨dummy_eq w, rfl, by decide, ?_⟩
  obtain ⟨e, he⟩ := subscript_isSome t u hu
  refine ⟨e, Edge.ne e (dummy w), he, by simp [contains, he], Edge.ne_eq_true_iff _ _, ?_⟩
  rw [Edge.ne_eq_true_iff, dummy_eq]
  cases e
  simp only [ne_eq, Edge.mk.injEq]
  tauto

theorem dummy_is_max_and_contains_iff_witness :
    dummy 32 = Edge.mk (2 ^ 32 - 1) (2 ^ 32 - 1)
    ∧ dummy 32 = Edge.mk (static_cast_Vertex 32 (-1)) (static_cast_Vertex 32 (-1))
    ∧ dummy 32 = Edge.mk 4294967295 4294967295
    ∧ ∃ e b, (TripletMergeTree.mk false [5, 6] [0, 0] [Edge.mk 1 4294967295, dummy 32] :
          TripletMergeTree Nat).subscript 0 = some e
        ∧ (TripletMergeTree.mk false [5, 6] [0, 0] [Edge.mk 1 4294967295, dummy 32] :
          TripletMergeTree Nat).contains 32 0 = some b
        ∧ (b = true ↔ e ≠ dummy 32)
        ∧ (b = true ↔ (e.through ≠ 2 ^ 32 - 1 ∨ e.to_ ≠ 2 ^ 32 - 1)) :=
  dummy_is_max_and_contains_iff 32
    (TripletMergeTree.mk false [5, 6] [0, 0] [Edge.mk 1 4294967295, dummy 32]) 0 (by decide)

/-- C4: for every size `N` and every flag `b`, the tree built by
`TripletMergeTree(N, b)` has `size() == N` and `negate() == b` (and
`negate() == false` when the flag is omitted), and every vertex `u < N` is
untouched: `operator[](u) == dummy()` and `contains(u)` is `false`. -/
theorem ctor_size_negate_untouched [Inhabited Value] (w N : Nat) (b : Bool) :
    (ctor w N b : TripletMergeTree Value).size = N
    ∧ (ctor w N b : TripletMergeTree Value).negate = b
    ∧ (ctor_default w N : TripletMergeTree Value).size = N
    ∧ (ctor_default w N : TripletMergeTree Value).negate = false
    ∧ ∀ u, u < N →
        (ctor w N b : TripletMergeTree Value).subscript u = some (dummy w)
        ∧ (ctor w N b : TripletMergeTree Value).contains w u = some false
        ∧ (ctor_default w N : TripletMergeTree Value).subscript u = some (dummy w)
        ∧ (ctor_default w N : TripletMergeTree Value).contains w u = some false := by
  have hsub : ∀ (c : Bool) (u : Nat), u < N →
      (ctor w N c : TripletMergeTree Value).subscript u = some (dummy w) := by
    intro c u hu
    simp [subscript, ctor_tree_, List.getElem?_replicate, hu]
  have hcon : ∀ (c : Bool) (u : Nat), u < N →
      (ctor w N c : TripletMergeTree Value).contains w u = some false := by
    intro c u hu
    simp [contains, hsub c u hu, (Edge.ne_eq_false_iff _ _).2 rfl]
  refine ⟨by simp [size, ctor_tree_], rfl, by simp [size, ctor_default, ctor_tree_], rfl, ?_⟩
  intro u hu
  exact ⟨hsub b u hu, hcon b u hu, hsub false u hu, hcon false u hu⟩

theorem ctor_size_negate_untouched_witness :
    (ctor 32 3 true : TripletMergeTree Int).size = 3
    ∧ (ctor 32 3 true : TripletMergeTree Int).subscript 2 = some (dummy 32)
    ∧ (ctor 32 3 true : TripletMergeTree Int).contains 32 2 = some false :=
  ⟨(ctor_size_negate_untouched 32 3 true).1,
   ((ctor_size_negate_untouched 32 3 true).2.2.2.2 2 (by decide)).1,
   ((ctor_size_negate_untouched 32 3 true).2.2.2.2 2 (by decide)).2.1⟩

/-! ## The comparator -/

theorem value_eq_some (t : TripletMergeTree Value) (u : Nat) (hu : u < t.function_.length) :
    t.value u = some t.function_[u] := by
  simp [value, hu]

theorem cmp_of_values [LinearOrder Value] (tie_desc : Bool) (t : TripletMergeTree Value)
    (u v : Nat) (fu fv : Value) (hfu : t.value u = some fu) (hfv : t.value v = some fv) :
    t.cmp tie_desc u v
      = some (if fu = fv then (if tie_desc then decide (v < u) else decide (u < v))
              else (if t.negate_ then decide (fv < fu) else decide (fu < fv))) := by
  unfold cmp
  rw [hfu, hfv]
  by_cases h : fu = fv <;> simp [h]

theorem cmp_keys_irrefl [LinearOrder Value] (tie_desc neg : Bool) (fu : Value) (u : Nat) :
    (if fu = fu then (if tie_desc then decide (u < u) else decide (u < u))
      else (if neg then decide (fu < fu) else decide (fu < fu))) = false := by
  cases tie_desc <;> simp

theorem cmp_keys_trans [LinearOrder Value] (tie_desc neg : Bool) (fu fv fx : Value)
    (u v x : Nat)
    (h1 : (if fu = fv then (if tie_desc then decide (v < u) else decide (u < v))
            else (if neg then decide (fv < fu) else decide (fu < fv))) = true)
    (h2 : (if fv = fx then (if tie_desc then decide (x < v) else decide (v < x))
            else (if neg then decide (fx < fv) else decide (fv < fx))) = true) :
    (if fu = fx then (if tie_desc then decide (x < u) else decide (u < x))
      else (if neg then decide (fx < fu) else decide (fu < fx))) = true := by
  by_cases e1 : fu = fv
  · subst e1
    by_cases e2 : fu = fx
    · subst e2
      cases tie_desc <;> simp at h1 h2 ⊢ <;> omega
    · simpa [e2] using h2
  · by_cases e2 : fv = fx
    · subst e2
      simpa [e1] using h1
    · cases neg
      · simp only [e1, e2, if_false, Bool.false_eq_true, decide_eq_true_eq] at h1 h2
        have h3 := lt_trans h1 h2
        simp [ne_of_lt h3, h3]
      · simp only [e1, e2, if_false, if_true, decide_eq_true_eq] at h1 h2
        have h3 := lt_trans h2 h1
        simp [ne_of_gt h3, h3]

theorem cmp_keys_total [LinearOrder Value] (tie_desc neg : Bool) (fu fv : Value)
    (u v : Nat) (huv : u ≠ v) :
    ((if fu = fv then (if tie_desc then decide (v < u) else decide (u < v))
        else (if neg then decide (fv < fu) else decide (fu < fv))) = true
      ∧ (if fv = fu then (if tie_desc then decide (u < v) else decide (v < u))
        else (if neg then decide (fu < fv) else decide (fv < fu))) = false)
    ∨ ((if fu = fv then (if tie_desc then decide (v < u) else decide (u < v))
        else (if neg then decide (fv < fu) else decide (fu < fv))) = false
      ∧ (if fv = fu then (if tie_desc then decide (u < v) else decide (v < u))
        else (if neg then decide (fu < fv) else decide (fv < fu))) = true) := by
  by_cases e1 : fu = fv
  · subst e1
    cases tie_desc <;> simp <;> omega
  · have e2 : ¬ fv = fu := fun h => e1 h.symm
    rcases lt_or_gt_of_ne e1 with h | h <;> cases neg <;>
      simp [e1, e2, h, le_of_lt h, not_lt_of_gt h]

/-- C5 (the body of `cmp` is modelled from the spec): for every fixed value of
`negate` and every assignment of function values, `cmp` is a strict total order
on the vertices `[0, N)`: it is irreflexive, transitive, and for two distinct
vertices exactly one of `cmp(u, v)`, `cmp(v, u)` holds; it orders primarily by
function value (ascending when `negate` is false, descending when it is true)
and, when `value(u) == value(v)`, decides by vertex index. -/
theorem cmp_strict_total_order [LinearOrder Value] (tie_desc : Bool)
    (t : TripletMergeTree Value) (hN : t.function_.length = t.size) :
    (∀ u, u < t.size → t.cmp tie_desc u u = some false)
    ∧ (∀ u v x, u < t.size → v < t.size → x < t.size →
        t.cmp tie_desc u v = some true → t.cmp tie_desc v x = some true →
        t.cmp tie_desc u x = some true)
    ∧ (∀ u v, u < t.size → v < t.size → u ≠ v →
        (t.cmp tie_desc u v = some true ∧ t.cmp tie_desc v u = some false)
        ∨ (t.cmp tie_desc u v = some false ∧ t.cmp tie_desc v u = some true))
    ∧ (∀ u v, u < t.size → v < t.size →
        ∃ fu fv, t.value u = some fu ∧ t.value v = some fv
          ∧ (t.negate = false → fu < fv → t.cmp tie_desc u v = some true)
          ∧ (t.negate = false → fv < fu → t.cmp tie_desc u v = some false)
          ∧ (t.negate = true → fv < fu → t.cmp tie_desc u v = some true)
          ∧ (t.negate = true → fu < fv → t.cmp tie_desc u v = some false)
          ∧ (fu = fv → t.cmp tie_desc u v
                = some (if tie_desc then decide (v < u) else decide (u < v)))) := by
  have hval : ∀ u, u < t.size → ∃ fu, t.value u = some fu := by
    intro u hu
    rw [← hN] at hu
    exact ⟨_, value_eq_some t u hu⟩
  refine ⟨?_, ?_, ?_, ?_⟩
  · intro u hu
    obtain ⟨fu, hfu⟩ := hval u hu
    rw [cmp_of_values tie_desc t u u fu fu hfu hfu, cmp_keys_irrefl]
  · intro u v x hu hv hx
    obtain ⟨fu, hfu⟩ := hval u hu
    obtain ⟨fv, hfv⟩ := hval v hv
    obtain ⟨fx, hfx⟩ := hval x hx
    rw [cmp_of_values tie_desc t u v fu fv hfu hfv, cmp_of_values tie_desc t v x fv fx hfv hfx,
      cmp_of_values tie_desc t u x fu fx hfu hfx]
    simp only [Option.some.injEq]
    exact cmp_keys_trans tie_desc t.negate_ fu fv fx u v x
  · intro u v hu hv huv
    obtain ⟨fu, hfu⟩ := hval u hu
    obtain ⟨fv, hfv⟩ := hval v hv
    rw [cmp_of_values tie_desc t u v fu fv hfu hfv, cmp_of_values tie_desc t v u fv fu hfv hfu]
    simp only [Option.some.injEq]
    exact cmp_keys_total tie_desc t.negate_ fu fv u v huv
  · intro u v hu hv
    obtain ⟨fu, hfu⟩ := hval u hu
    obtain ⟨fv, hfv⟩ := hval v hv
    refine ⟨fu, fv, hfu, hfv, ?_⟩
    rw [cmp_of_values tie_desc t u v fu fv hfu hfv]
    unfold negate
    refine ⟨?_, ?_, ?_, ?_, ?_⟩
    · intro hn h
      simp [hn, ne_of_lt h, h]
    · intro hn h
      simp [hn, ne_of_gt h, le_of_lt h]
    · intro hn h
      simp [hn, ne_of_gt h, h]
    · intro hn h
      simp [hn, ne_of_lt h, le_of_lt h]
    · intro h
      simp [h]

theorem cmp_strict_total_order_witness :
    (TripletMergeTree.mk false [3, 1, 4, 1, 5] [0, 0, 0, 0, 0]
        [dummy 32, dummy 32, dummy 32, dummy 32, dummy 32] : TripletMergeTree Int).function_.length
      = (TripletMergeTree.mk false [3, 1, 4, 1, 5] [0, 0, 0, 0, 0]
        [dummy 32, dummy 32, dummy 32, dummy 32, dummy 32] : TripletMergeTree Int).size
    ∧ ((TripletMergeTree.mk false [3, 1, 4, 1, 5] [0, 0, 0, 0, 0]
          [dummy 32, dummy 32, dummy 32, dummy 32, dummy 32] : TripletMergeTree Int).cmp true 1 3
          = some true
        ∧ (TripletMergeTree.mk false [3, 1, 4, 1, 5] [0, 0, 0, 0, 0]
          [dummy 32, dummy 32, dummy 32, dummy 32, dummy 32] : TripletMergeTree Int).cmp true 3 1
          = some false
      ∨ (TripletMergeTree.mk false [3, 1, 4, 1, 5] [0, 0, 0, 0, 0]
          [dummy 32, dummy 32, dummy 32, dummy 32, dummy 32] : TripletMergeTree Int).cmp true 1 3
          = some false
        ∧ (TripletMergeTree.mk false [3, 1, 4, 1, 5] [0, 0, 0, 0, 0]
          [dummy 32, dummy 32, dummy 32, dummy 32, dummy 32] : TripletMergeTree Int).cmp true 3 1
          = some true) :=
  ⟨by decide,
   (cmp_strict_total_order true
      (TripletMergeTree.mk false [3, 1, 4, 1, 5] [0, 0, 0, 0, 0]
        [dummy 32, dummy 32, dummy 32, dummy 32, dummy 32]) (by decide)).2.2.1 1 3
      (by decide) (by decide) (by decide)⟩

/-! ## The two builds of `cas_link` -/

/-- C6: in the build with `NESOI_NO_PARALLEL`, `cas_link` performs no
comparison: for every tree, every vertex `u < size()` and all `os, ov, s, v`,
`cas_link(u, os, ov, s, v)` returns `true` and afterwards the triplet at `u` is
`(s, v)`, regardless of `os`, `ov` and of the triplet `u` held before; the call
has exactly the effect of `link(u, s, v)`. -/
theorem cas_link_serial_eq_link (spurious : Bool) (t : TripletMergeTree Value)
    (u os ov s v : Nat) (hu : u < t.size) :
    t.cas_link false spurious u os ov s v = (t.link u s v).map (fun t' => (true, t'))
    ∧ (∀ os' ov', t.cas_link false spurious u os' ov' s v = t.cas_link false spurious u os ov s v)
    ∧ ∃ t', t.link u s v = some t'
        ∧ t.cas_link false spurious u os ov s v = some (true, t')
        ∧ t'.subscript u = some (Edge.mk s v) := by
  have hl := link_eq_some t u s v hu
  have hc := fun a b => cas_link_serial_eq_some spurious t u a b s v hu
  refine ⟨by rw [hl, hc]; rfl, fun a b => by rw [hc, hc], _, hl, hc os ov, ?_⟩
  exact subscript_set_self t.negate_ t.function_ t.cache_ t.tree_ u (Edge.mk s v) hu

theorem cas_link_serial_eq_link_witness :
    (ctor 32 2 true : TripletMergeTree Nat).cas_link false false 1 3 4 0 1
      = ((ctor 32 2 true : TripletMergeTree Nat).link 1 0 1).map (fun t' => (true, t'))
    ∧ (∀ os' ov', (ctor 32 2 true : TripletMergeTree Nat).cas_link false false 1 os' ov' 0 1
        = (ctor 32 2 true : TripletMergeTree Nat).cas_link false false 1 3 4 0 1)
    ∧ ∃ t', (ctor 32 2 true : TripletMergeTree Nat).link 1 0 1 = some t'
        ∧ (ctor 32 2 true : TripletMergeTree Nat).cas_link false false 1 3 4 0 1 = some (true, t')
        ∧ t'.subscript 1 = some (Edge.mk 0 1) :=
  cas_link_serial_eq_link false (ctor 32 2 true) 1 3 4 0 1 (by decide)

/-- C7: in the atomic build, where `cas_link` is `compare_exchange_weak` and may
fail spuriously, for every single call `cas_link(u, os, ov, s, v)` with
`u < size()`: if it returns `true` then the triplet at `u` was `(os, ov)` before
the call and is `(s, v)` after it; if it returns `false` then the triplet at `u`
(indeed the whole tree) is unchanged; and whenever the triplet at `u` differs
from `(os, ov)` the call returns `false`. -/
theorem cas_link_parallel_contract (spurious : Bool) (t : TripletMergeTree Value)
    (u os ov s v : Nat) (hu : u < t.size) :
    ∃ cur r t', t.subscript u = some cur
      ∧ t.cas_link true spurious u os ov s v = some (r, t')
      ∧ (r = true → cur = Edge.mk os ov ∧ t'.subscript u = some (Edge.mk s v))
      ∧ (r = false → t'.subscript u = some cur ∧ t' = t)
      ∧ (cur ≠ Edge.mk os ov → r = false) := by
  obtain ⟨cur, hcur⟩ := subscript_isSome t u hu
  rcases cas_link_parallel_cases spurious t u os ov s v cur hcur with ⟨h1, _, h3⟩ | ⟨h1, h3⟩
  · refine ⟨cur, true, _, hcur, h3, ?_, ?_, ?_⟩
    · intro _
      exact ⟨h1, subscript_set_self t.negate_ t.function_ t.cache_ t.tree_ u (Edge.mk s v) hu⟩
    · intro h
      cases h
    · intro h
      exact absurd h1 h
  · refine ⟨cur, false, t, hcur, h3, ?_, ?_, ?_⟩
    · intro h
      cases h
    · intro _
      exact ⟨hcur, rfl⟩
    · intro _
      rfl

theorem cas_link_parallel_contract_witness :
    ∃ cur r t', (ctor 32 2 true : TripletMergeTree Nat).subscript 1 = some cur
      ∧ (ctor 32 2 true : TripletMergeTree Nat).cas_link true true 1 3 4 0 1 = some (r, t')
      ∧ (r = true → cur = Edge.mk 3 4 ∧ t'.subscript 1 = some (Edge.mk 0 1))
      ∧ (r = false → t'.subscript 1 = some cur ∧ t' = (ctor 32 2 true : TripletMergeTree Nat))
      ∧ (cur ≠ Edge.mk 3 4 → r = false) :=
  cas_link_parallel_contract true (ctor 32 2 true) 1 3 4 0 1 (by decide)

/-- In the atomic build a call whose expected triplet is the one stored succeeds
unless the environment makes it fail spuriously, and then the triplet at `u` is
`(s, v)`: success is possible, failure is not forced. -/
theorem cas_link_parallel_succeeds (t : TripletMergeTree Value) (u os ov s v : Nat)
    (hcur : t.subscript u = some (Edge.mk os ov)) :
    ∃ t', t.cas_link true false u os ov s v = some (true, t')
      ∧ t'.subscript u = some (Edge.mk s v) := by
  have hu : u < t.tree_.length := by
    unfold subscript at hcur
    rcases Nat.lt_or_ge u t.tree_.length with h1 | h1
    · exact h1
    · rw [List.getElem?_eq_none h1] at hcur
      cases hcur
  rcases cas_link_parallel_cases false t u os ov s v _ hcur with ⟨_, _, h3⟩ | ⟨h1, _⟩
  · exact ⟨_, h3, subscript_set_self t.negate_ t.function_ t.cache_ t.tree_ u (Edge.mk s v) hu⟩
  · rcases h1 with h1 | h1
    · exact absurd rfl h1
    · cases h1

end TripletMergeTree

/-! ## The buckets of `pairings` -/

theorem decide_le_eq_not_decide_lt {Value : Type} [LinearOrder Value] (a b : Value) :
    decide (b ≤ a) = !decide (a < b) := by
  by_cases h : a < b
  · simp [h]
  · simp [h, not_lt.1 h]

theorem filter_lt_append_filter_le_perm {α Value : Type} [LinearOrder Value] (f : α → Value)
    (epsilon : Value) (l : List α) :
    (l.filter (fun x => decide (f x < epsilon))
        ++ l.filter (fun x => decide (epsilon ≤ f x))).Perm l := by
  have h : (fun x => decide (epsilon ≤ f x)) = (fun x => !decide (f x < epsilon)) := by
    funext x
    exact decide_le_eq_not_decide_lt (f x) epsilon
  rw [h]
  exact List.filter_append_perm _ l

/-- C8 (the body of `pairings` is modelled from the spec): for every input
`(edges, labels, values, negate, squash_root, epsilon)`, `pairings` returns
four buckets that partition the persistence pairs and the essential vertices:
every pair in the first bucket has persistence
`|value(saddle) - value(extremum)| < epsilon` and every pair in the second has
persistence `>= epsilon`; when `squash_root` is false the third bucket is empty
and the fourth holds all essential vertices; when `squash_root` is true the
third holds exactly the essential vertices with birth `< epsilon` and the
fourth exactly those with birth `>= epsilon`. -/
theorem pairings_partition {Value : Type} [LinearOrderedAddCommGroup Value]
    (features : List (Nat × Nat) → (Nat → Int) → (Nat → Value) → Bool → IndexDiagram × IndexArray)
    (edges : List (Nat × Nat)) (labels : Nat → Int) (values : Nat → Value)
    (negate squash_root : Bool) (epsilon : Value) :
    (∀ p, p ∈ (pairings features edges labels values negate squash_root epsilon).1 ↔
        p ∈ (features edges labels values negate).1 ∧ persistence values p < epsilon)
    ∧ (∀ p, p ∈ (pairings features edges labels values negate squash_root epsilon).2.1 ↔
        p ∈ (features edges labels values negate).1 ∧ epsilon ≤ persistence values p)
    ∧ ((pairings features edges labels values negate squash_root epsilon).1
        ++ (pairings features edges labels values negate squash_root epsilon).2.1).Perm
          (features edges labels values negate).1
    ∧ ((pairings features edges labels values negate squash_root epsilon).2.2.1
        ++ (pairings features edges labels values negate squash_root epsilon).2.2.2).Perm
          (features edges labels values negate).2
    ∧ (pairings features edges labels values negate false epsilon).2.2.1 = []
    ∧ (pairings features edges labels values negate false epsilon).2.2.2
        = (features edges labels values negate).2
    ∧ (∀ u, u ∈ (pairings features edges labels values negate true epsilon).2.2.1 ↔
        u ∈ (features edges labels values negate).2 ∧ values u < epsilon)
    ∧ (∀ u, u ∈ (pairings features edges labels values negate true epsilon).2.2.2 ↔
        u ∈ (features edges labels values negate).2 ∧ epsilon ≤ values u) := by
  refine ⟨?_, ?_, ?_, ?_, ?_, ?_, ?_, ?_⟩
  · intro p
    simp [pairings]
  · intro p
    simp [pairings]
  · exact filter_lt_append_filter_le_perm (persistence values) epsilon _
  · cases squash_root
    · simp [pairings]
    · simpa [pairings] using filter_lt_append_filter_le_perm values epsilon
        (features edges labels values negate).2
  · simp [pairings]
  · simp [pairings]
  · intro u
    simp [pairings]
  · intro u
    simp [pairings]

/-- The buckets on the path of five vertices with values `3, 1, 4, 1, 5`, for two
pairs and two essential vertices, at `epsilon = 3`. -/
theorem pairings_example :
    pairings (fun _ _ _ _ => ([(0, 1), (2, 3)], [1, 4])) [(0, 1), (1, 2), (2, 3), (3, 4)]
        (fun _ => 0) (fun u => [3, 1, 4, 1, 5].getD u (0 : Int)) false true 3
      = ([(0, 1)], [(2, 3)], [1], [4])
    ∧ pairings (fun _ _ _ _ => ([(0, 1), (2, 3)], [1, 4])) [(0, 1), (1, 2), (2, 3), (3, 4)]
        (fun _ => 0) (fun u => [3, 1, 4, 1, 5].getD u (0 : Int)) false false 3
      = ([(0, 1)], [(2, 3)], [], [1, 4]) := by
  decide

/-! ## The invariant on triplets and the fixed size -/

namespace TripletMergeTree

variable {Value : Type}

theorem Valid_set (w : Nat) (t : TripletMergeTree Value) (ht : Valid w t) (u : Nat) (e : Edge)
    (he : e ≠ dummy w → e.to_ < t.size) :
    Valid w (TripletMergeTree.mk t.negate_ t.function_ t.cache_ (t.tree_.set u e)) := by
  intro x hx e' he' hne
  have hsize : (TripletMergeTree.mk t.negate_ t.function_ t.cache_ (t.tree_.set u e)).size
      = t.size := by
    simp [size]
  rw [hsize] at hx ⊢
  by_cases hxu : x = u
  · subst hxu
    rw [subscript_set_self t.negate_ t.function_ t.cache_ t.tree_ x e hx] at he'
    cases he'
    exact he hne
  · rw [subscript_set_other t.negate_ t.function_ t.cache_ t.tree_ u x e hxu] at he'
    exact ht x hx e' he' hne

/-- C9: the predicate `Valid` (every non-sentinel triplet has its `to` below
`size()`) is an invariant of the store under caller-validated inputs: it holds
for the tree built by `TripletMergeTree(N, b)`, and for every tree `t` with
`Valid(t)` and all `u, s, v < size()`, the tree after `link(u, s, v)` and the
tree after `cas_link(u, os, ov, s, v)`, in either build and whether it succeeds
or fails, again satisfy `Valid` (the bound on `s` is not needed, so it is not
assumed). -/
theorem Valid_invariant [Inhabited Value] (w N : Nat) (b : Bool) (t : TripletMergeTree Value)
    (ht : Valid w t) (u s v os ov : Nat) (hu : u < t.size) (hv : v < t.size)
    (parallel spurious : Bool) :
    Valid w (ctor w N b : TripletMergeTree Value)
    ∧ (∃ t', t.link u s v = some t' ∧ Valid w t')
    ∧ (∃ r t', t.cas_link parallel spurious u os ov s v = some (r, t') ∧ Valid w t') := by
  have hnew : Valid w (TripletMergeTree.mk t.negate_ t.function_ t.cache_
      (t.tree_.set u (Edge.mk s v))) :=
    Valid_set w t ht u (Edge.mk s v) (fun _ => hv)
  refine ⟨?_, ⟨_, link_eq_some t u s v hu, hnew⟩, ?_⟩
  · intro x hx e he hne
    have hx' : x < N := by simpa [size, ctor_tree_] using hx
    have hsub : (ctor w N b : TripletMergeTree Value).subscript x = some (dummy w) := by
      simp [subscript, ctor_tree_, List.getElem?_replicate, hx']
    rw [hsub] at he
    cases he
    exact absurd rfl hne
  · cases parallel
    · exact ⟨true, _, cas_link_serial_eq_some spurious t u os ov s v hu, hnew⟩
    · obtain ⟨cur, hcur⟩ := subscript_isSome t u hu
      rcases cas_link_parallel_cases spurious t u os ov s v cur hcur with ⟨_, _, h3⟩ | ⟨_, h3⟩
      · exact ⟨true, _, h3, hnew⟩
      · exact ⟨false, t, h3, ht⟩

theorem Valid_invariant_witness :
    Valid 32 (TripletMergeTree.mk false [5, 6, 7] [0, 0, 0] [Edge.mk 2 1, dummy 32, Edge.mk 0 0] :
      TripletMergeTree Nat)
    ∧ Valid 32 (ctor 32 4 true : TripletMergeTree Nat)
    ∧ (∃ t', (TripletMergeTree.mk false [5, 6, 7] [0, 0, 0]
          [Edge.mk 2 1, dummy 32, Edge.mk 0 0] : TripletMergeTree Nat).link 1 0 2 = some t'
        ∧ Valid 32 t')
    ∧ (∃ r t', (TripletMergeTree.mk false [5, 6, 7] [0, 0, 0]
          [Edge.mk 2 1, dummy 32, Edge.mk 0 0] : TripletMergeTree Nat).cas_link true false
            1 4294967295 4294967295 0 2 = some (r, t')
        ∧ Valid 32 t') :=
  ⟨by decide,
   Valid_invariant 32 4 true
     (TripletMergeTree.mk false [5, 6, 7] [0, 0, 0] [Edge.mk 2 1, dummy 32, Edge.mk 0 0])
     (by decide) 1 0 2 4294967295 4294967295 (by decide) (by decide) true false⟩

theorem apply_size (parallel : Bool) (t t' : TripletMergeTree Value) (op : Op)
    (h : t.apply parallel op = some t') : t'.size = t.size := by
  cases op with
  | link u s v =>
    simp only [apply, link] at h
    split at h
    · cases h
      simp [size]
    · cases h
  | cas_link spurious u os ov s v =>
    simp only [apply, cas_link] at h
    cases parallel
    · simp only [Bool.false_eq_true, if_false] at h
      split at h
      · cases h
        simp [size]
      · cases h
    · simp only [if_true] at h
      split at h
      · cases h
      · cases h
        simp [size]
  | set_negate b =>
    simp only [apply] at h
    cases h
    rfl

theorem apply_isSome (parallel : Bool) (t : TripletMergeTree Value) (op : Op)
    (h : op.in_range t.size = true) : ∃ t', t.apply parallel op = some t' := by
  cases op with
  | link u s v =>
    have hu : u < t.size := by simpa [Op.in_range] using h
    exact ⟨_, link_eq_some t u s v hu⟩
  | cas_link spurious u os ov s v =>
    have hu : u < t.size := by simpa [Op.in_range] using h
    cases parallel
    · simp only [apply]
      rw [cas_link_serial_eq_some spurious t u os ov s v hu]
      exact ⟨_, rfl⟩
    · obtain ⟨cur, hcur⟩ := subscript_isSome t u hu
      simp only [apply]
      rw [cas_link_parallel_eq_some spurious t u os ov s v cur hcur]
      exact ⟨_, rfl⟩
  | set_negate b =>
    exact ⟨_, rfl⟩

theorem run_size (parallel : Bool) (ops : List Op) :
    ∀ (t : TripletMergeTree Value), (∀ op, op ∈ ops → op.in_range t.size = true) →
      ∃ t', t.run parallel ops = some t' ∧ t'.size = t.size := by
  induction ops with
  | nil =>
    intro t _
    exact ⟨t, rfl, rfl⟩
  | cons op ops ih =>
    intro t h
    obtain ⟨t1, h1⟩ := apply_isSome parallel t op (h op (List.mem_cons_self _ _))
    have hs1 := apply_size parallel t t1 op h1
    obtain ⟨t2, h2, hs2⟩ := ih t1 (fun o ho => by
      rw [hs1]
      exact h o (List.mem_cons_of_mem _ ho))
    refine ⟨t2, ?_, by rw [hs2, hs1]⟩
    simp [run, h1, h2]

/-- C10: the size of a tree never changes after construction and in-range
accesses never go out of bounds: starting from `TripletMergeTree(N, b)`, after
any finite sequence of `link`, `cas_link` and `set_negate` calls whose vertex
argument is `< N` (in either build, whatever the outcome of each `cas_link`),
`size()` is still `N`, and every `operator[](u)`, `contains(u)`, `link(u, ..)`
and `cas_link(u, ..)` with `u < N` indexes inside the slot array: none of them
is `none`. -/
theorem size_fixed_and_in_bounds [Inhabited Value] (parallel : Bool) (w N : Nat) (b : Bool)
    (ops : List Op) (hops : ∀ op, op ∈ ops → op.in_range N = true) :
    ∃ t', (ctor w N b : TripletMergeTree Value).run parallel ops = some t'
      ∧ t'.size = N
      ∧ ∀ u, u < N →
          (t'.subscript u).isSome = true
          ∧ (t'.contains w u).isSome = true
          ∧ (∀ s v, (t'.link u s v).isSome = true)
          ∧ (∀ spurious os ov s v, (t'.cas_link parallel spurious u os ov s v).isSome = true) := by
  have hN : (ctor w N b : TripletMergeTree Value).size = N := by simp [size, ctor_tree_]
  obtain ⟨t', hrun, hsize⟩ := run_size parallel ops (ctor w N b : TripletMergeTree Value)
    (fun op hop => by rw [hN]; exact hops op hop)
  rw [hN] at hsize
  refine ⟨t', hrun, hsize, ?_⟩
  intro u hu
  rw [← hsize] at hu
  obtain ⟨cur, hcur⟩ := subscript_isSome t' u hu
  refine ⟨by simp [hcur], by simp [contains, hcur], ?_, ?_⟩
  · intro s v
    simp [link_eq_some t' u s v hu]
  · intro spurious os ov s v
    cases parallel
    · simp [cas_link_serial_eq_some spurious t' u os ov s v hu]
    · simp [cas_link_parallel_eq_some spurious t' u os ov s v cur hcur]

theorem size_fixed_and_in_bounds_witness :
    ∃ t', (ctor 32 2 false : TripletMergeTree Nat).run true
        [Op.link 0 1 1, Op.cas_link false 1 4294967295 4294967295 0 0, Op.set_negate true]
        = some t'
      ∧ t'.size = 2
      ∧ ∀ u, u < 2 →
          (t'.subscript u).isSome = true
          ∧ (t'.contains 32 u).isSome = true
          ∧ (∀ s v, (t'.link u s v).isSome = true)
          ∧ (∀ spurious os ov s v, (t'.cas_link true spurious u os ov s v).isSome = true) :=
  size_fixed_and_in_bounds true 32 2 false
    [Op.link 0 1 1, Op.cas_link false 1 4294967295 4294967295 0 0, Op.set_negate true]
    (by decide)

end TripletMergeTree

/-! ## Frame of the mutating calls -/

namespace TripletMergeTree

variable {Value : Type}

theorem set_frame (t : TripletMergeTree Value) (u : Nat) (e : Edge) :
    (∀ x, x ≠ u →
        (TripletMergeTree.mk t.negate_ t.function_ t.cache_ (t.tree_.set u e)).subscript x
          = t.subscript x)
    ∧ (∀ y, (TripletMergeTree.mk t.negate_ t.function_ t.cache_ (t.tree_.set u e)).value y
          = t.value y)
    ∧ (TripletMergeTree.mk t.negate_ t.function_ t.cache_ (t.tree_.set u e)).negate = t.negate
    ∧ (TripletMergeTree.mk t.negate_ t.function_ t.cache_ (t.tree_.set u e)).size = t.size := by
  refine ⟨?_, fun _ => rfl, rfl, by simp [size]⟩
  intro x hx
  exact subscript_set_other t.negate_ t.function_ t.cache_ t.tree_ u x e hx

/-- C11: `link` and `cas_link` write at most the one slot they are given: for
every tree, every `u < size()` and every other vertex `x != u`,
`operator[](x)` is the same before and after `link(u, s, v)` and before and
after `cas_link(u, os, ov, s, v)` (in either build, successful or not);
`value(y)` for every `y`, `negate()` and `size()` are also unchanged by both
operations; and `set_negate(b)` changes only `negate()`, to `b`, leaving every
triplet and every value unchanged. -/
theorem link_cas_link_frame (parallel spurious : Bool) (t : TripletMergeTree Value)
    (u os ov s v : Nat) (b : Bool) (hu : u < t.size) :
    (∃ t', t.link u s v = some t'
        ∧ (∀ x, x ≠ u → t'.subscript x = t.subscript x)
        ∧ (∀ y, t'.value y = t.value y)
        ∧ t'.negate = t.negate
        ∧ t'.size = t.size)
    ∧ (∃ r t', t.cas_link parallel spurious u os ov s v = some (r, t')
        ∧ (∀ x, x ≠ u → t'.subscript x = t.subscript x)
        ∧ (∀ y, t'.value y = t.value y)
        ∧ t'.negate = t.negate
        ∧ t'.size = t.size)
    ∧ ((t.set_negate b).negate = b
        ∧ (∀ x, (t.set_negate b).subscript x = t.subscript x)
        ∧ (∀ y, (t.set_negate b).value y = t.value y)
        ∧ (t.set_negate b).size = t.size
        ∧ (t.set_negate b).tree_ = t.tree_
        ∧ (t.set_negate b).function_ = t.function_
        ∧ (t.set_negate b).cache_ = t.cache_) := by
  have hset := set_frame t u (Edge.mk s v)
  refine ⟨⟨_, link_eq_some t u s v hu, hset⟩, ?_,
    ⟨rfl, fun _ => rfl, fun _ => rfl, rfl, rfl, rfl, rfl⟩⟩
  cases parallel
  · exact ⟨true, _, cas_link_serial_eq_some spurious t u os ov s v hu, hset⟩
  · obtain ⟨cur, hcur⟩ := subscript_isSome t u hu
    rcases cas_link_parallel_cases spurious t u os ov s v cur hcur with ⟨_, _, h3⟩ | ⟨_, h3⟩
    · exact ⟨true, _, h3, hset⟩
    · exact ⟨false, t, h3, fun _ _ => rfl, fun _ => rfl, rfl, rfl⟩

theorem link_cas_link_frame_witness :
    (∃ t', (TripletMergeTree.mk false [5, 6, 7] [0, 0, 0]
          [Edge.mk 2 1, dummy 32, Edge.mk 0 0] : TripletMergeTree Nat).link 1 0 2 = some t'
        ∧ (∀ x, x ≠ 1 → t'.subscript x
            = (TripletMergeTree.mk false [5, 6, 7] [0, 0, 0]
                [Edge.mk 2 1, dummy 32, Edge.mk 0 0] : TripletMergeTree Nat).subscript x)
        ∧ (∀ y, t'.value y
            = (TripletMergeTree.mk false [5, 6, 7] [0, 0, 0]
                [Edge.mk 2 1, dummy 32, Edge.mk 0 0] : TripletMergeTree Nat).value y)
        ∧ t'.negate = false
        ∧ t'.size = 3) :=
  (link_cas_link_frame true false
    (TripletMergeTree.mk false [5, 6, 7] [0, 0, 0] [Edge.mk 2 1, dummy 32, Edge.mk 0 0])
    1 4 4 0 2 true (by decide)).1

/-! ## `compare_exchange` against the serial `cas_link` -/

theorem compare_exchange_serial_cases (spurious : Bool) (e expected desired : Edge) :
    (e = expected ∧ compare_exchange false spurious e expected desired = (true, desired))
    ∨ (e ≠ expected ∧ compare_exchange false spurious e expected desired = (false, e)) := by
  unfold compare_exchange
  by_cases h : e = expected
  · left
    simp [h, (Edge.ne_eq_false_iff expected expected).2 rfl]
  · right
    simp [h, (Edge.ne_eq_true_iff e expected).2 h]

theorem compare_exchange_at_eq_some (parallel spurious : Bool) (t : TripletMergeTree Value)
    (u : Nat) (expected desired cur : Edge) (hcur : t.subscript u = some cur) :
    t.compare_exchange_at parallel spurious u expected desired
      = some ((compare_exchange parallel spurious cur expected desired).1,
          TripletMergeTree.mk t.negate_ t.function_ t.cache_
            (t.tree_.set u (compare_exchange parallel spurious cur expected desired).2)) := by
  unfold subscript at hcur
  simp [compare_exchange_at, hcur]

/-- C12: in the build with `NESOI_NO_PARALLEL` the private helper
`compare_exchange(e, expected, desired)` is a true compare-and-swap (it returns
`true` iff `e == expected`; on `true`, `e` becomes `desired`; on `false`, `e`
is unchanged), and `cas_link` agrees with it on the inputs the single-writer
contract allows: for every tree and `u < size()`, with `cur` the triplet at
`u`, if `cur` equals `(os, ov)` then `cas_link(u, os, ov, s, v)` and
`compare_exchange(tree_[u], (os, ov), (s, v))` return the same value and leave
the same tree; whenever `cur` is not `(os, ov)` the two differ in return value
(`true` against `false`) and in the final slot (`(s, v)` against `cur`), unless
`(s, v)` is `cur`. -/
theorem compare_exchange_serial_vs_cas_link (spurious : Bool) (t : TripletMergeTree Value)
    (u os ov s v : Nat) (e expected desired cur : Edge) (hu : u < t.size)
    (hcur : t.subscript u = some cur) :
    (((compare_exchange false spurious e expected desired).1 = true ↔ Edge.eq e expected = true)
      ∧ ((compare_exchange false spurious e expected desired).1 = true ↔ e = expected)
      ∧ ((compare_exchange false spurious e expected desired).1 = true →
          (compare_exchange false spurious e expected desired).2 = desired)
      ∧ ((compare_exchange false spurious e expected desired).1 = false →
          (compare_exchange false spurious e expected desired).2 = e))
    ∧ (cur = Edge.mk os ov →
        t.cas_link false spurious u os ov s v
          = t.compare_exchange_at false spurious u (Edge.mk os ov) (Edge.mk s v))
    ∧ (cur ≠ Edge.mk os ov →
        ∃ t1 t2, t.cas_link false spurious u os ov s v = some (true, t1)
          ∧ t.compare_exchange_at false spurious u (Edge.mk os ov) (Edge.mk s v)
              = some (false, t2)
          ∧ t1.subscript u = some (Edge.mk s v)
          ∧ t2.subscript u = some cur
          ∧ t2 = t
          ∧ (t1.subscript u = t2.subscript u ↔ Edge.mk s v = cur)
          ∧ (t1 = t2 ↔ Edge.mk s v = cur)) := by
  have hcas := cas_link_serial_eq_some spurious t u os ov s v hu
  have hce := compare_exchange_at_eq_some false spurious t u (Edge.mk os ov) (Edge.mk s v)
    cur hcur
  have hself : t.tree_.set u cur = t.tree_ := by
    unfold subscript at hcur
    exact list_set_of_getElem? t.tree_ u cur hcur
  have hnew := subscript_set_self t.negate_ t.function_ t.cache_ t.tree_ u (Edge.mk s v) hu
  refine ⟨?_, ?_, ?_⟩
  · rw [Edge.eq_eq_true_iff]
    rcases compare_exchange_serial_cases spurious e expected desired with ⟨h1, h2⟩ | ⟨h1, h2⟩
    · rw [h2]
      simp [h1]
    · rw [h2]
      simp [h1]
  · intro hmatch
    rcases compare_exchange_serial_cases spurious cur (Edge.mk os ov) (Edge.mk s v)
      with ⟨_, h2⟩ | ⟨h1, _⟩
    · rw [hcas, hce, h2]
    · exact absurd hmatch h1
  · intro hmis
    rcases compare_exchange_serial_cases spurious cur (Edge.mk os ov) (Edge.mk s v)
      with ⟨h1, _⟩ | ⟨_, h2⟩
    · exact absurd h1 hmis
    · rw [h2] at hce
      simp only [hself] at hce
      refine ⟨_, t, hcas, hce, hnew, hcur, rfl, ?_, ?_⟩
      · rw [hnew, hcur]
        simp
      · constructor
        · intro h
          have h' := congrArg (fun x => x.subscript u) h
          simp only [hnew, hcur, Option.some.injEq] at h'
          exact h'
        · intro h
          rw [h, hself]

theorem compare_exchange_serial_vs_cas_link_witness :
    (TripletMergeTree.mk false [5, 6] [0, 0] [Edge.mk 1 0, dummy 32] :
        TripletMergeTree Nat).cas_link false false 0 1 0 1 1
      = (TripletMergeTree.mk false [5, 6] [0, 0] [Edge.mk 1 0, dummy 32] :
        TripletMergeTree Nat).compare_exchange_at false false 0 (Edge.mk 1 0) (Edge.mk 1 1)
    ∧ (∃ t1 t2, (TripletMergeTree.mk false [5, 6] [0, 0] [Edge.mk 1 0, dummy 32] :
          TripletMergeTree Nat).cas_link false false 0 0 0 1 1 = some (true, t1)
        ∧ (TripletMergeTree.mk false [5, 6] [0, 0] [Edge.mk 1 0, dummy 32] :
          TripletMergeTree Nat).compare_exchange_at false false 0 (Edge.mk 0 0) (Edge.mk 1 1)
            = some (false, t2)
        ∧ t1.subscript 0 = some (Edge.mk 1 1)
        ∧ t2.subscript 0 = some (Edge.mk 1 0)
        ∧ t2 = (TripletMergeTree.mk false [5, 6] [0, 0] [Edge.mk 1 0, dummy 32] :
            TripletMergeTree Nat)
        ∧ (t1.subscript 0 = t2.subscript 0 ↔ Edge.mk 1 1 = Edge.mk 1 0)
        ∧ (t1 = t2 ↔ Edge.mk 1 1 = Edge.mk 1 0)) :=
  ⟨(compare_exchange_serial_vs_cas_link false
      (TripletMergeTree.mk false [5, 6] [0, 0] [Edge.mk 1 0, dummy 32])
      0 1 0 1 1 (Edge.mk 1 0) (Edge.mk 1 0) (Edge.mk 1 1) (Edge.mk 1 0)
      (by decide) (by decide)).2.1 (by decide),
   (compare_exchange_serial_vs_cas_link false
      (TripletMergeTree.mk false [5, 6] [0, 0] [Edge.mk 1 0, dummy 32])
      0 0 0 1 1 (Edge.mk 1 0) (Edge.mk 0 0) (Edge.mk 1 1) (Edge.mk 1 0)
      (by decide) (by decide)).2.2 (by decide)⟩

/-! ## `link` and `contains` -/

theorem contains_after_link (w : Nat) (t : TripletMergeTree Value) (u s v : Nat)
    (hu : u < t.size) :
    ∃ t', t.link u s v = some t' ∧ t'.subscript u = some (Edge.mk s v)
      ∧ t'.contains w u = some (Edge.ne (Edge.mk s v) (dummy w)) := by
  have hsub := subscript_set_self t.negate_ t.function_ t.cache_ t.tree_ u (Edge.mk s v) hu
  refine ⟨_, link_eq_some t u s v hu, hsub, ?_⟩
  unfold contains
  rw [hsub]
  rfl

theorem Edge.ne_dummy_eq_false_iff (w s v : Nat) :
    Edge.ne (Edge.mk s v) (dummy w) = false ↔ (s = 2 ^ w - 1 ∧ v = 2 ^ w - 1) := by
  rw [Edge.ne_eq_false_iff, dummy_eq]
  simp

theorem Edge.ne_dummy_eq_true_iff (w s v : Nat) :
    Edge.ne (Edge.mk s v) (dummy w) = true ↔ ¬ (s = 2 ^ w - 1 ∧ v = 2 ^ w - 1) := by
  rw [Edge.ne_eq_true_iff, dummy_eq]
  simp

/-- C13: linking to real vertices always marks a vertex as present, and only
the sentinel pair unmarks it.  With `MAX = 2 ^ w - 1`: for every tree of size
`N <= MAX` and all `u, s, v < N`, `contains(u)` is `true` after
`link(u, s, v)`; in general, for any `s, v`, `contains(u)` after
`link(u, s, v)` is `false` iff `s == MAX` and `v == MAX`, so
`link(u, MAX, MAX)` returns `u` to the untouched state, while
`link(u, MAX, v)` with `v != MAX` or `link(u, s, MAX)` with `s != MAX` leaves
`u` contained. -/
theorem link_then_contains (w : Nat) (t : TripletMergeTree Value) (u s v : Nat)
    (hu : u < t.size) :
    (∃ t', t.link u s v = some t'
        ∧ (t'.contains w u = some false ↔ (s = 2 ^ w - 1 ∧ v = 2 ^ w - 1))
        ∧ (t'.contains w u = some true ↔ ¬ (s = 2 ^ w - 1 ∧ v = 2 ^ w - 1))
        ∧ (t.size ≤ 2 ^ w - 1 → s < t.size → v < t.size → t'.contains w u = some true))
    ∧ (∃ t', t.link u (2 ^ w - 1) (2 ^ w - 1) = some t'
        ∧ t'.subscript u = some (dummy w)
        ∧ t'.contains w u = some false)
    ∧ (v ≠ 2 ^ w - 1 →
        ∃ t', t.link u (2 ^ w - 1) v = some t' ∧ t'.contains w u = some true)
    ∧ (s ≠ 2 ^ w - 1 →
        ∃ t', t.link u s (2 ^ w - 1) = some t' ∧ t'.contains w u = some true) := by
  refine ⟨?_, ?_, ?_, ?_⟩
  · obtain ⟨t', hl, _, hc⟩ := contains_after_link w t u s v hu
    refine ⟨t', hl, ?_, ?_, ?_⟩
    · rw [hc, Option.some.injEq, Edge.ne_dummy_eq_false_iff]
    · rw [hc, Option.some.injEq, Edge.ne_dummy_eq_true_iff]
    · intro hN hs _
      rw [hc, Option.some.injEq, Edge.ne_dummy_eq_true_iff]
      intro h
      omega
  · obtain ⟨t', hl, hsub, hc⟩ := contains_after_link w t u (2 ^ w - 1) (2 ^ w - 1) hu
    refine ⟨t', hl, by rw [hsub, dummy_eq], ?_⟩
    rw [hc, Option.some.injEq, Edge.ne_dummy_eq_false_iff]
    exact ⟨rfl, rfl⟩
  · intro hv
    obtain ⟨t', hl, _, hc⟩ := contains_after_link w t u (2 ^ w - 1) v hu
    refine ⟨t', hl, ?_⟩
    rw [hc, Option.some.injEq, Edge.ne_dummy_eq_true_iff]
    exact fun h => hv h.2
  · intro hs
    obtain ⟨t', hl, _, hc⟩ := contains_after_link w t u s (2 ^ w - 1) hu
    refine ⟨t', hl, ?_⟩
    rw [hc, Option.some.injEq, Edge.ne_dummy_eq_true_iff]
    exact fun h => hs h.1

theorem link_then_contains_witness :
    (∃ t', (TripletMergeTree.mk false [5, 6, 7] [0, 0, 0]
          [dummy 32, dummy 32, Edge.mk 0 0] : TripletMergeTree Nat).link 1 0 2 = some t'
        ∧ t'.contains 32 1 = some true)
    ∧ (∃ t', (TripletMergeTree.mk false [5, 6, 7] [0, 0, 0]
          [dummy 32, dummy 32, Edge.mk 0 0] : TripletMergeTree Nat).link 1 (2 ^ 32 - 1) 2
            = some t'
        ∧ t'.contains 32 1 = some true)
    ∧ (∃ t', (TripletMergeTree.mk false [5, 6, 7] [0, 0, 0]
          [dummy 32, dummy 32, Edge.mk 0 0] : TripletMergeTree Nat).link 1 0 (2 ^ 32 - 1)
            = some t'
        ∧ t'.contains 32 1 = some true) := by
  obtain ⟨t', h1, _, _, h4⟩ := (link_then_contains 32
    (TripletMergeTree.mk false [5, 6, 7] [0, 0, 0] [dummy 32, dummy 32, Edge.mk 0 0] :
      TripletMergeTree Nat) 1 0 2 (by decide)).1
  exact ⟨⟨t', h1, h4 (by decide) (by decide) (by decide)⟩,
    (link_then_contains 32
      (TripletMergeTree.mk false [5, 6, 7] [0, 0, 0] [dummy 32, dummy 32, Edge.mk 0 0])
      1 0 2 (by decide)).2.2.1 (by decide),
    (link_then_contains 32
      (TripletMergeTree.mk false [5, 6, 7] [0, 0, 0] [dummy 32, dummy 32, Edge.mk 0 0])
      1 0 2 (by decide)).2.2.2 (by decide)⟩

/-! ## Laws of `link` -/

theorem link_bind_link (t : TripletMergeTree Value) (u1 s1 v1 u2 s2 v2 : Nat)
    (hu1 : u1 < t.size) (hu2 : u2 < t.size) :
    (t.link u1 s1 v1).bind (fun t' => t'.link u2 s2 v2)
      = some (TripletMergeTree.mk t.negate_ t.function_ t.cache_
          ((t.tree_.set u1 (Edge.mk s1 v1)).set u2 (Edge.mk s2 v2))) := by
  rw [link_eq_some t u1 s1 v1 hu1, Option.some_bind]
  have h : u2 < (TripletMergeTree.mk t.negate_ t.function_ t.cache_
      (t.tree_.set u1 (Edge.mk s1 v1))).size := by
    simpa [size] using hu2
  rw [link_eq_some _ u2 s2 v2 h]

/-- C15: `link` obeys last-write-wins and independence laws on the slot array:
for every tree and every in-range vertex `u`, `link(u, s, v)` followed by
`link(u, s, v)` gives the same tree as a single `link(u, s, v)`;
`link(u, s1, v1)` followed by `link(u, s2, v2)` gives the same tree as
`link(u, s2, v2)` alone; and for every in-range vertex `u2 != u`,
`link(u, s1, v1)` then `link(u2, s2, v2)` gives the same tree as the two calls
in the opposite order.  Only the last law asks for a second vertex, so the
first two hold on a tree of one vertex as well. -/
theorem link_laws (t : TripletMergeTree Value) (u s v s1 v1 s2 v2 : Nat) (hu : u < t.size) :
    ((t.link u s v).bind (fun t' => t'.link u s v) = t.link u s v)
    ∧ ((t.link u s1 v1).bind (fun t' => t'.link u s2 v2) = t.link u s2 v2)
    ∧ (∃ t', t.link u s v = some t')
    ∧ (∃ t', (t.link u s1 v1).bind (fun t' => t'.link u s2 v2) = some t')
    ∧ (∀ u2, u2 < t.size → u ≠ u2 →
        ((t.link u s1 v1).bind (fun t' => t'.link u2 s2 v2)
          = (t.link u2 s2 v2).bind (fun t' => t'.link u s1 v1))
        ∧ (∃ t', (t.link u s1 v1).bind (fun t' => t'.link u2 s2 v2) = some t')) := by
  refine ⟨?_, ?_, ⟨_, link_eq_some t u s v hu⟩, ⟨_, link_bind_link t u s1 v1 u s2 v2 hu hu⟩, ?_⟩
  · rw [link_bind_link t u s v u s v hu hu, link_eq_some t u s v hu, List.set_set]
  · rw [link_bind_link t u s1 v1 u s2 v2 hu hu, link_eq_some t u s2 v2 hu, List.set_set]
  · intro u2 hu2 hne
    refine ⟨?_, ⟨_, link_bind_link t u s1 v1 u2 s2 v2 hu hu2⟩⟩
    rw [link_bind_link t u s1 v1 u2 s2 v2 hu hu2, link_bind_link t u2 s2 v2 u s1 v1 hu2 hu,
      List.set_comm _ _ _ hne]

theorem link_laws_witness :
    (((ctor 32 1 false : TripletMergeTree Nat).link 0 1 2).bind (fun t' => t'.link 0 1 2)
        = (ctor 32 1 false : TripletMergeTree Nat).link 0 1 2)
    ∧ (((ctor 32 1 false : TripletMergeTree Nat).link 0 2 2).bind (fun t' => t'.link 0 0 1)
        = (ctor 32 1 false : TripletMergeTree Nat).link 0 0 1)
    ∧ (∃ t', (ctor 32 1 false : TripletMergeTree Nat).link 0 1 2 = some t')
    ∧ (((ctor 32 3 false : TripletMergeTree Nat).link 1 2 2).bind (fun t' => t'.link 2 0 1)
        = ((ctor 32 3 false : TripletMergeTree Nat).link 2 0 1).bind (fun t' => t'.link 1 2 2))
    ∧ (∃ t', ((ctor 32 3 false : TripletMergeTree Nat).link 1 2 2).bind
        (fun t' => t'.link 2 0 1) = some t') :=
  ⟨(link_laws (ctor 32 1 false) 0 1 2 2 2 0 1 (by decide)).1,
   (link_laws (ctor 32 1 false) 0 1 2 2 2 0 1 (by decide)).2.1,
   (link_laws (ctor 32 1 false) 0 1 2 2 2 0 1 (by decide)).2.2.1,
   ((link_laws (ctor 32 3 false) 1 1 2 2 2 0 1 (by decide)).2.2.2.2 2 (by decide) (by decide)).1,
   ((link_laws (ctor 32 3 false) 1 1 2 2 2 0 1 (by decide)).2.2.2.2 2 (by decide) (by decide)).2⟩

end TripletMergeTree

/-! ## Comparison of edges -/

/-- C14: comparison of edges is consistent: for all edges `a`, `b`, `a != b` is
the negation of `a == b`; `a == b` holds iff `a.through == b.through` and
`a.to == b.to`; and `==` is reflexive, symmetric and transitive; so the
expected-value test of `contains` (against `dummy()`), of `compare_exchange`
(build with `NESOI_NO_PARALLEL`) and of the atomic `cas_link` (when it does not
fail spuriously) is component-wise equality of the `(through, to)` pair. -/
theorem Edge_comparison_consistent (Value : Type) (a b c : Edge) :
    Edge.ne a b = !Edge.eq a b
    ∧ (Edge.eq a b = true ↔ (a.through = b.through ∧ a.to_ = b.to_))
    ∧ (Edge.eq a b = true ↔ a = b)
    ∧ Edge.eq a a = true
    ∧ (Edge.eq a b = true → Edge.eq b a = true)
    ∧ (Edge.eq a b = true → Edge.eq b c = true → Edge.eq a c = true)
    ∧ (∀ (w : Nat) (t : TripletMergeTree Value) (u : Nat),
        t.contains w u = (t.subscript u).map (fun e => !Edge.eq e (dummy w)))
    ∧ (∀ spurious desired, (compare_exchange false spurious a b desired).1 = Edge.eq a b)
    ∧ (∀ desired, (compare_exchange_weak false a b desired).1 = Edge.eq a b) := by
  have hne : ∀ x y : Edge, Edge.ne x y = !Edge.eq x y := by
    intro x y
    cases x
    cases y
    simp only [Edge.ne, Edge.eq, bne, Bool.not_and]
  refine ⟨hne a b, ?_, Edge.eq_eq_true_iff a b, (Edge.eq_eq_true_iff a a).2 rfl, ?_, ?_, ?_, ?_, ?_⟩
  · simp [Edge.eq]
  · intro h
    rw [Edge.eq_eq_true_iff] at h ⊢
    exact h.symm
  · intro h1 h2
    rw [Edge.eq_eq_true_iff] at h1 h2 ⊢
    exact h1.trans h2
  · intro w t u
    unfold TripletMergeTree.contains
    congr 1
    funext e
    exact hne e (dummy w)
  · intro spurious desired
    unfold compare_exchange
    rw [hne a b]
    cases Edge.eq a b <;> simp
  · intro desired
    unfold compare_exchange_weak
    by_cases h : a = b
    · simp [h, (Edge.eq_eq_true_iff b b).2 rfl]
    · have h' : Edge.eq a b = false := by
        rw [← Bool.not_eq_true, Edge.eq_eq_true_iff]
        exact h
      simp [h, h']

theorem Edge_comparison_consistent_witness :
    Edge.eq (Edge.mk 1 2) (Edge.mk 1 2) = true
    ∧ Edge.eq (Edge.mk 1 2) (Edge.mk 1 2) = true
    ∧ Edge.ne (Edge.mk 1 2) (Edge.mk 1 2) = !Edge.eq (Edge.mk 1 2) (Edge.mk 1 2) :=
  ⟨(Edge_comparison_consistent Nat (Edge.mk 1 2) (Edge.mk 1 2) (Edge.mk 1 2)).2.2.2.2.1 (by decide),
   (Edge_comparison_consistent Nat (Edge.mk 1 2) (Edge.mk 1 2) (Edge.mk 1 2)).2.2.2.2.2.1
      (by decide) (by decide),
   (Edge_comparison_consistent Nat (Edge.mk 1 2) (Edge.mk 1 2) (Edge.mk 1 2)).1⟩

end nesoi
